import Mathlib

/-!
# Recursive-descent expression parser and evaluator (`expr-tree.cc`)

A shallow embedding of the parser (`next`, `Literal`, `Term`, `Factor`, `Expression`) and of
the evaluator (`evaluate`) of `expr-tree.cc`, followed by theorems about them.

Modelling conventions.

* A C++ `int` is a Lean `Int`.  Every `int` the program computes stays far inside the 32-bit
  range (symbols are `-1 .. 255`, a leaf value is a symbol minus 48, and an operator combines
  two values that were narrowed to 8 bits), so no wrap-around is modelled for `int`.
* A C++ `char` is the signed 8-bit type of the usual x86-64 targets of `g++`; storing an `int`
  in it is modelled by `toChar`, reduction modulo 256 into `-128 .. 127`.
* Character constants are written as their ASCII codes:
  `'*' = 42`, `'+' = 43`, `'-' = 45`, `'/' = 47`, `'0' = 48`, `'9' = 57`, `'{' = 123`,
  `'}' = 125`.
* The input file is the list of the bytes that `fgetc` has not delivered yet.
* A parsing function of the source receives a reference `Node *&T` to a fresh node and either
  fills that node in or redirects `T` to a subtree; its model returns the tree that `T`
  designates when the function returns, together with the state of the lexer.
* The recursive functions of the parser take a fuel argument that bounds the depth of the
  call stack; `none` means the fuel ran out.  The theorems give explicit fuel bounds.
* An integer division by zero is undefined behaviour in C++; `evaluate` returns `none` there.
-/

namespace ExprTree

/-! ## Data model -/

/-- The source's `typedef int symbol`. -/
abbrev symbol := Int

/-- The value `EOF` that `fgetc` returns once the stream is exhausted. -/
def EOF : symbol := -1

/-- A value of type `Node *`: the null pointer, or a pointer to a `struct Node` with its
`data` and its `left` and `right` pointers. -/
inductive Node where
  | nil : Node
  | mk (data : symbol) (left right : Node) : Node
  deriving DecidableEq, Repr

/-- The state of the lexer: the global `c` (the current symbol) and the unread rest of the
`FILE *file`, one `Nat` per byte. -/
structure Lexer where
  c : symbol
  file : List Nat
  deriving DecidableEq, Repr

/-! ## Lexer -/

/-- The source's `next`: `c = fgetc(file)`.  `fgetc` delivers the next byte as a non-negative
`int`, or `EOF` when no byte is left (and again `EOF` on every later call). -/
def next (st : Lexer) : Lexer :=
  match st.file with
  | [] => { c := EOF, file := [] }
  | b :: rest => { c := (b : Int), file := rest }

/-- The lexer as `main` primes it before calling `Expression`: `next(file, c)` on the freshly
opened file with contents `s`. -/
def prime (s : List Nat) : Lexer :=
  next { c := 0, file := s }

/-! ## Parser -/

/-- The source's `Literal`: the node `T` receives the current symbol and two null children,
then the lexer advances. -/
def Literal (st : Lexer) : Node × Lexer :=
  (Node.mk st.c Node.nil Node.nil, next st)

mutual

/-- The source's `Term`: a group `{ Expression <any symbol>` or a `Literal`. -/
def Term : Nat → Lexer → Option (Node × Lexer)
  | 0, _ => none
  | fuel + 1, st =>
    if st.c = 123 then
      match Expression fuel (next st) with
      | none => none
      | some (T, st1) => some (T, next st1)
    else
      some (Literal st)

/-- The source's `Factor`: a `Term`, then on `+` or `-` a further `Factor`. -/
def Factor : Nat → Lexer → Option (Node × Lexer)
  | 0, _ => none
  | fuel + 1, st =>
    match Term fuel st with
    | none => none
    | some (termTree, st1) =>
      if st1.c = 43 then
        match Factor fuel (next st1) with
        | none => none
        | some (factorTree, st2) => some (Node.mk 43 termTree factorTree, st2)
      else if st1.c = 45 then
        match Factor fuel (next st1) with
        | none => none
        | some (factorTree, st2) => some (Node.mk 45 termTree factorTree, st2)
      else
        some (termTree, st1)

/-- The source's `Expression`: a `Factor`, then on `*` or `/` a further `Expression`. -/
def Expression : Nat → Lexer → Option (Node × Lexer)
  | 0, _ => none
  | fuel + 1, st =>
    match Factor fuel st with
    | none => none
    | some (factorTree, st1) =>
      if st1.c = 42 then
        match Expression fuel (next st1) with
        | none => none
        | some (expressionTree, st2) => some (Node.mk 42 factorTree expressionTree, st2)
      else if st1.c = 47 then
        match Expression fuel (next st1) with
        | none => none
        | some (expressionTree, st2) => some (Node.mk 47 factorTree expressionTree, st2)
      else
        some (factorTree, st1)

end

/-! ## Evaluator -/

/-- Storing an `int` in a `char` (signed, 8 bits): the value modulo 256 in `-128 .. 127`. -/
def toChar (v : Int) : Int :=
  (v + 128) % 256 - 128

/-- The source's `evaluate`.  `none` stands for the undefined behaviour of the integer
division `leftValue / rightValue` when `rightValue` is 0; the source has no other failure. -/
def evaluate : Node → Option Int
  | Node.nil => some 0
  | Node.mk data Node.nil Node.nil => some (data - 48)
  | Node.mk data left right =>
    match evaluate left with
    | none => none
    | some l =>
      match evaluate right with
      | none => none
      | some r =>
        let leftValue := toChar l
        let rightValue := toChar r
        if toChar data = 43 then some (leftValue + rightValue)
        else if toChar data = 45 then some (leftValue - rightValue)
        else if toChar data = 42 then some (leftValue * rightValue)
        else if toChar data = 47 then
          if rightValue = 0 then none else some (Int.tdiv leftValue rightValue)
        else some 0

/-- The bytes of an ASCII string, as the file holds them. -/
def bytes (s : String) : List Nat :=
  s.toList.map Char.toNat

/-! ## The documented grammar -/

/-- The four nonterminals of the grammar in the header of `expr-tree.cc`. -/
inductive Rule where
  | expression
  | factor
  | term
  | literal
  deriving DecidableEq, Repr

/-- The grammar of the file header, with the tree of each derivation: `Derives r s T` says
that the string `s` is derivable from the nonterminal `r` and that `T` is the AST of that
derivation (a leaf for a digit, the inner tree for a group, an operator node over the trees
of the two operands for an operator production).
```
<expression> ::= <factor> * <expression> | <factor> / <expression> | <factor>
<factor>     ::= <term> + <factor> | <term> - <factor> | <term>
<term>       ::= { <expression> } | <literal>
<literal>    ::= 0|1|2|3|4|5|6|7|8|9
``` -/
inductive Derives : Rule → List Nat → Node → Prop where
  | digit (d : Nat) (h0 : 48 ≤ d) (h9 : d ≤ 57) :
      Derives Rule.literal [d] (Node.mk (d : Int) Node.nil Node.nil)
  | literal {s : List Nat} {T : Node} :
      Derives Rule.literal s T → Derives Rule.term s T
  | group {s : List Nat} {T : Node} :
      Derives Rule.expression s T → Derives Rule.term (123 :: (s ++ [125])) T
  | term {s : List Nat} {T : Node} :
      Derives Rule.term s T → Derives Rule.factor s T
  | plus {s1 s2 : List Nat} {T1 T2 : Node} :
      Derives Rule.term s1 T1 → Derives Rule.factor s2 T2 →
      Derives Rule.factor (s1 ++ 43 :: s2) (Node.mk 43 T1 T2)
  | minus {s1 s2 : List Nat} {T1 T2 : Node} :
      Derives Rule.term s1 T1 → Derives Rule.factor s2 T2 →
      Derives Rule.factor (s1 ++ 45 :: s2) (Node.mk 45 T1 T2)
  | factor {s : List Nat} {T : Node} :
      Derives Rule.factor s T → Derives Rule.expression s T
  | times {s1 s2 : List Nat} {T1 T2 : Node} :
      Derives Rule.factor s1 T1 → Derives Rule.expression s2 T2 →
      Derives Rule.expression (s1 ++ 42 :: s2) (Node.mk 42 T1 T2)
  | divide {s1 s2 : List Nat} {T1 T2 : Node} :
      Derives Rule.factor s1 T1 → Derives Rule.expression s2 T2 →
      Derives Rule.expression (s1 ++ 47 :: s2) (Node.mk 47 T1 T2)

/-- A well-formed expression: a string derivable from `<expression>`. -/
def WellFormed (s : List Nat) : Prop :=
  ∃ T, Derives Rule.expression s T

/-- The parsing function of each nonterminal. -/
def run : Rule → Nat → Lexer → Option (Node × Lexer)
  | Rule.expression, fuel, st => Expression fuel st
  | Rule.factor, fuel, st => Factor fuel st
  | Rule.term, fuel, st => Term fuel st
  | Rule.literal, _, st => some (Literal st)

/-- The symbols after which the function of a nonterminal stops: `Factor` goes on after `+`
and `-`, `Expression` after any of the four operators. -/
def stopsAt : Rule → Int → Prop
  | Rule.expression, c => c ≠ 42 ∧ c ≠ 47 ∧ c ≠ 43 ∧ c ≠ 45
  | Rule.factor, c => c ≠ 43 ∧ c ≠ 45
  | Rule.term, _ => True
  | Rule.literal, _ => True

/-- How many calls below `Expression` the function of a nonterminal sits. -/
def level : Rule → Nat
  | Rule.expression => 0
  | Rule.factor => 1
  | Rule.term => 2
  | Rule.literal => 3

/-- A leaf: a node with both children null. -/
def leaf (d : symbol) : Node :=
  Node.mk d Node.nil Node.nil

/-- The number of nodes of a tree. -/
def size : Node → Nat
  | Node.nil => 0
  | Node.mk _ left right => size left + size right + 1

/-- The lexer at the end of the stream: every `fgetc` has returned, and returns, `EOF`. -/
def atEOF : Lexer :=
  { c := EOF, file := [] }

/-- The integer that `main` prints: the lexer is primed, `Expression` builds `root`, and
`evaluate(root)` is written to the standard output. -/
def mainOutput (fuel : Nat) (s : List Nat) : Option Int :=
  match Expression fuel (prime s) with
  | none => none
  | some (root, _) => evaluate root

/-! ## The evaluator's contract, in the words of the specification -/

/-- The exact integer value of a tree, following the specification's words: the digit value
(symbol minus `'0'`) for a leaf, and for an internal node the sum, the difference
`left - right`, the product or the quotient truncated toward zero of the exact values of its
subtrees.  It is the yardstick `evaluate` is compared with. -/
def exactValue : Node → Int
  | Node.nil => 0
  | Node.mk data Node.nil Node.nil => data - 48
  | Node.mk data left right =>
    if data = 43 then exactValue left + exactValue right
    else if data = 45 then exactValue left - exactValue right
    else if data = 42 then exactValue left * exactValue right
    else if data = 47 then Int.tdiv (exactValue left) (exactValue right)
    else 0

/-- A well-formed tree: every leaf holds a digit character, every internal node holds one of
`+ - * /` and has two children. -/
def wellFormedTree : Node → Bool
  | Node.nil => false
  | Node.mk data Node.nil Node.nil => decide (48 ≤ data ∧ data ≤ 57)
  | Node.mk data left right =>
    decide (data = 43 ∨ data = 45 ∨ data = 42 ∨ data = 47) && wellFormedTree left &&
      wellFormedTree right

/-- No `/` node of the tree has a right subtree whose exact value is 0. -/
def noZeroDivisor : Node → Bool
  | Node.nil => true
  | Node.mk _ Node.nil Node.nil => true
  | Node.mk data left right =>
    decide (data = 47 → exactValue right ≠ 0) && noZeroDivisor left && noZeroDivisor right

/-! ## Auxiliary definitions for the evaluator -/

/-- The last step of `evaluate` on an internal node: the two child values are stored in the
`char` variables `leftValue` and `rightValue` and combined by the operator that `data`,
narrowed to a `char`, holds. -/
def combine (data l r : Int) : Option Int :=
  if toChar data = 43 then some (toChar l + toChar r)
  else if toChar data = 45 then some (toChar l - toChar r)
  else if toChar data = 42 then some (toChar l * toChar r)
  else if toChar data = 47 then
    if toChar r = 0 then none else some (Int.tdiv (toChar l) (toChar r))
  else some 0

/-- The tree contains a `/` node (a node with a child whose `data`, read as a `char`, is
`'/'`) whose right subtree evaluates to 0. -/
def divisorZero : Node → Bool
  | Node.nil => false
  | Node.mk _ Node.nil Node.nil => false
  | Node.mk data left right =>
    (decide (toChar data = 47) && decide (evaluate right = some 0)) || divisorZero left ||
      divisorZero right

/-- A child value fits a `char` when it lies within `-128 .. 127`; a child without a value
imposes nothing. -/
def fitsChar : Option Int → Bool
  | none => true
  | some v => decide (-128 ≤ v ∧ v ≤ 127)

/-- Every value that `evaluate` stores in `leftValue` or `rightValue` while it walks the tree
lies within `-128 .. 127`, so that no narrowing changes a value. -/
def operandsFit : Node → Bool
  | Node.nil => true
  | Node.mk _ Node.nil Node.nil => true
  | Node.mk _ left right =>
    fitsChar (evaluate left) && fitsChar (evaluate right) && operandsFit left &&
      operandsFit right

/-! ## Measures of the lexer and of the tree -/

/-- The number of symbols the lexer has not consumed yet: the current symbol, unless it is
the end-of-stream sentinel, and the unread bytes of the file. -/
def remaining (st : Lexer) : Nat :=
  (if st.c = EOF then 0 else 1) + st.file.length

/-- The number of nodes on the longest path from the root to a leaf (0 for the null
pointer). -/
def levels : Node → Nat
  | Node.nil => 0
  | Node.mk _ left right => max (levels left) (levels right) + 1

/-- The height of a tree: the number of edges on the longest path from the root to a leaf. -/
def height (t : Node) : Nat :=
  levels t - 1

/-- The shape invariant of the AST: every node is a leaf with both children absent, or holds
one of `+ - * /` and has both children present. -/
def shaped : Node → Bool
  | Node.nil => false
  | Node.mk _ Node.nil Node.nil => true
  | Node.mk data left right =>
    decide (data = 43 ∨ data = 45 ∨ data = 42 ∨ data = 47) && shaped left && shaped right

/-- The outcome `r` of a parsing function started in the state `st` is a tree that satisfies
the shape invariant, and every level of the tree is paid for by a consumed symbol. -/
def Returns (r : Option (Node × Lexer)) (st : Lexer) : Prop :=
  ∃ T st1, r = some (T, st1) ∧ shaped T = true ∧ levels T + remaining st1 ≤ remaining st + 1

/-! ## Symbols of the input and labels of the tree -/

/-- The labels of the tree in in-order: left subtree, node, right subtree. -/
def inorder : Node → List Int
  | Node.nil => []
  | Node.mk data left right => inorder left ++ data :: inorder right

/-- The labels of the leaves, read from left to right. -/
def fringe : Node → List Int
  | Node.nil => []
  | Node.mk data Node.nil Node.nil => [data]
  | Node.mk _ left right => fringe left ++ fringe right

/-- The number of internal nodes: the nodes that have a child. -/
def internalCount : Node → Nat
  | Node.nil => 0
  | Node.mk _ Node.nil Node.nil => 0
  | Node.mk _ left right => internalCount left + internalCount right + 1

/-- The byte is `{` or `}`. -/
def isBrace (b : Nat) : Bool :=
  decide (b = 123 ∨ b = 125)

/-- The byte is a decimal digit, `0` to `9`. -/
def isDigit (b : Nat) : Bool :=
  decide (48 ≤ b ∧ b ≤ 57)

/-- The byte is one of the operator characters `* + - /`. -/
def isOperator (b : Nat) : Bool :=
  decide (b = 42 ∨ b = 43 ∨ b = 45 ∨ b = 47)

/-- The tree `T` preserves the symbols of the string `s` and their order: its in-order
labels are `s` without the braces, its leaves are the digits of `s`, and it has one internal
node per operator character of `s`. -/
def Preserves (s : List Nat) (T : Node) : Prop :=
  T ≠ Node.nil ∧
    inorder T = List.map (fun b : Nat => (b : Int)) (s.filter (fun b => !isBrace b)) ∧
    fringe T = List.map (fun b : Nat => (b : Int)) (s.filter isDigit) ∧
    internalCount T = s.countP isOperator

/-! ## Helper lemmas -/

theorem next_eq_prime (c : symbol) (t : List Nat) : next { c := c, file := t } = prime t := rfl

theorem prime_cons (b : Nat) (t : List Nat) : prime (b :: t) = { c := (b : Int), file := t } :=
  rfl

theorem prime_nil : prime [] = atEOF := rfl

theorem next_atEOF : next atEOF = atEOF := rfl

theorem derives_length_pos {r : Rule} {s : List Nat} {T : Node} (h : Derives r s T) :
    1 ≤ s.length := by
  induction h <;> first | assumption | (simp <;> omega)

theorem append_cons_append (s1 s2 t : List Nat) (b : Nat) :
    (s1 ++ b :: s2) ++ t = s1 ++ b :: (s2 ++ t) := by
  simp

/-- Soundness of the parser on the grammar: on a derivable string `s` followed by any
remainder `t` at whose first symbol the rule stops, the function of the rule returns the tree
of the derivation and leaves the lexer on the first symbol of `t`. -/
theorem run_derives {r : Rule} {s : List Nat} {T : Node} (h : Derives r s T) :
    ∀ (t : List Nat) (fuel : Nat), stopsAt r (prime t).c → 3 * s.length ≤ fuel + level r →
      run r fuel (prime (s ++ t)) = some (T, prime t) := by
  induction h with
  | digit d h0 h9 =>
    intro t fuel _ _
    simp [run, Literal, prime_cons, next_eq_prime]
  | literal hl _ =>
    intro t fuel _ hf
    cases hl with
    | digit d h0 h9 =>
      obtain ⟨n, rfl⟩ : ∃ n, fuel = n + 1 := ⟨fuel - 1, by simp [level] at hf; omega⟩
      have hne : ¬ ((d : Int) = 123) := by omega
      simp [run, Term, Literal, prime_cons, next_eq_prime, hne]
  | @group s T he ih =>
    intro t fuel _ hf
    simp only [level, List.length_cons, List.length_append, List.length_singleton] at hf
    obtain ⟨n, rfl⟩ : ∃ n, fuel = n + 1 := ⟨fuel - 1, by omega⟩
    have h1 := ih (125 :: t) n (by simp [stopsAt, prime_cons]) (by simp [level]; omega)
    simp only [run] at h1
    have hs : (123 :: (s ++ [125])) ++ t = 123 :: (s ++ 125 :: t) := by simp
    simp [run, Term, hs, prime_cons, next_eq_prime, h1]
  | @term s T ht ih =>
    intro t fuel hstop hf
    have hp := derives_length_pos ht
    simp only [level] at hf
    obtain ⟨n, rfl⟩ : ∃ n, fuel = n + 1 := ⟨fuel - 1, by omega⟩
    have h1 := ih t n trivial (by simp [level]; omega)
    simp only [run] at h1
    simp only [stopsAt] at hstop
    simp [run, Factor, h1, hstop.1, hstop.2]
  | @plus s1 s2 T1 T2 ht hfac ih1 ih2 =>
    intro t fuel hstop hf
    simp only [level, List.length_cons, List.length_append] at hf
    obtain ⟨n, rfl⟩ : ∃ n, fuel = n + 1 := ⟨fuel - 1, by omega⟩
    have h1 := ih1 (43 :: (s2 ++ t)) n trivial (by simp [level]; omega)
    have h2 := ih2 t n hstop (by simp [level]; omega)
    simp only [run] at h1 h2
    simp [run, Factor, append_cons_append, h1, prime_cons, next_eq_prime, h2]
  | @minus s1 s2 T1 T2 ht hfac ih1 ih2 =>
    intro t fuel hstop hf
    simp only [level, List.length_cons, List.length_append] at hf
    obtain ⟨n, rfl⟩ : ∃ n, fuel = n + 1 := ⟨fuel - 1, by omega⟩
    have h1 := ih1 (45 :: (s2 ++ t)) n trivial (by simp [level]; omega)
    have h2 := ih2 t n hstop (by simp [level]; omega)
    simp only [run] at h1 h2
    simp [run, Factor, append_cons_append, h1, prime_cons, next_eq_prime, h2]
  | @factor s T hfac ih =>
    intro t fuel hstop hf
    have hp := derives_length_pos hfac
    simp only [level] at hf
    obtain ⟨n, rfl⟩ : ∃ n, fuel = n + 1 := ⟨fuel - 1, by omega⟩
    simp only [stopsAt] at hstop
    have h1 := ih t n ⟨hstop.2.2.1, hstop.2.2.2⟩ (by simp [level]; omega)
    simp only [run] at h1
    simp [run, Expression, h1, hstop.1, hstop.2.1]
  | @times s1 s2 T1 T2 hfac he ih1 ih2 =>
    intro t fuel hstop hf
    simp only [level, List.length_cons, List.length_append] at hf
    obtain ⟨n, rfl⟩ : ∃ n, fuel = n + 1 := ⟨fuel - 1, by omega⟩
    have h1 := ih1 (42 :: (s2 ++ t)) n (by simp [stopsAt, prime_cons]) (by simp [level]; omega)
    have h2 := ih2 t n hstop (by simp [level]; omega)
    simp only [run] at h1 h2
    simp [run, Expression, append_cons_append, h1, prime_cons, next_eq_prime, h2]
  | @divide s1 s2 T1 T2 hfac he ih1 ih2 =>
    intro t fuel hstop hf
    simp only [level, List.length_cons, List.length_append] at hf
    obtain ⟨n, rfl⟩ : ∃ n, fuel = n + 1 := ⟨fuel - 1, by omega⟩
    have h1 := ih1 (47 :: (s2 ++ t)) n (by simp [stopsAt, prime_cons]) (by simp [level]; omega)
    have h2 := ih2 t n hstop (by simp [level]; omega)
    simp only [run] at h1 h2
    simp [run, Expression, append_cons_append, h1, prime_cons, next_eq_prime, h2]

/-- A digit is a literal, a term, a factor and an expression, with a leaf for tree. -/
theorem derives_digit (r : Rule) (d : Nat) (h0 : 48 ≤ d) (h9 : d ≤ 57) :
    Derives r [d] (leaf (d : Int)) := by
  have hl : Derives Rule.literal [d] (leaf (d : Int)) := Derives.digit d h0 h9
  cases r with
  | literal => exact hl
  | term => exact Derives.literal hl
  | factor => exact Derives.term (Derives.literal hl)
  | expression => exact Derives.factor (Derives.term (Derives.literal hl))

/-- A braced expression is a term, and with it a factor and an expression. -/
theorem derives_braces {s : List Nat} {T : Node} (h : Derives Rule.expression s T) :
    Derives Rule.term (123 :: (s ++ [125])) T ∧ Derives Rule.factor (123 :: (s ++ [125])) T ∧
      Derives Rule.expression (123 :: (s ++ [125])) T :=
  ⟨Derives.group h, Derives.term (Derives.group h),
    Derives.factor (Derives.term (Derives.group h))⟩

/-- Soundness of `Expression` on a whole file. -/
theorem expression_derives {s : List Nat} {T : Node} (h : Derives Rule.expression s T)
    (fuel : Nat) (hfuel : 3 * s.length ≤ fuel) :
    Expression fuel (prime s) = some (T, atEOF) := by
  have := run_derives h [] fuel (by simp [stopsAt, prime_nil, atEOF, EOF]) (by simp [level]; omega)
  simpa [run, prime_nil] using this

/-- The header's example `{5*6}/2+5` is derivable, with the tree `/ (* 5 6) (+ 2 5)`. -/
theorem derives_header_example :
    Derives Rule.expression (bytes "{5*6}/2+5")
      (Node.mk 47 (Node.mk 42 (leaf 53) (leaf 54)) (Node.mk 43 (leaf 50) (leaf 53))) := by
  have h56 : Derives Rule.expression ([53] ++ 42 :: [54]) (Node.mk 42 (leaf 53) (leaf 54)) :=
    Derives.times (derives_digit Rule.factor 53 (by decide) (by decide))
      (derives_digit Rule.expression 54 (by decide) (by decide))
  have h25 : Derives Rule.factor ([50] ++ 43 :: [53]) (Node.mk 43 (leaf 50) (leaf 53)) :=
    Derives.plus (derives_digit Rule.term 50 (by decide) (by decide))
      (derives_digit Rule.factor 53 (by decide) (by decide))
  exact Derives.divide (derives_braces h56).2.1 (Derives.factor h25)

/-- The two additive productions of `<factor>`, for either operator. -/
theorem derives_additive {s1 s2 : List Nat} {T1 T2 : Node} (o : Nat) (ho : o = 43 ∨ o = 45)
    (h1 : Derives Rule.term s1 T1) (h2 : Derives Rule.factor s2 T2) :
    Derives Rule.factor (s1 ++ o :: s2) (Node.mk (o : Int) T1 T2) := by
  rcases ho with rfl | rfl
  · exact Derives.plus h1 h2
  · exact Derives.minus h1 h2

/-- The two multiplicative productions of `<expression>`, for either operator. -/
theorem derives_multiplicative {s1 s2 : List Nat} {T1 T2 : Node} (o : Nat)
    (ho : o = 42 ∨ o = 47)
    (h1 : Derives Rule.factor s1 T1) (h2 : Derives Rule.expression s2 T2) :
    Derives Rule.expression (s1 ++ o :: s2) (Node.mk (o : Int) T1 T2) := by
  rcases ho with rfl | rfl
  · exact Derives.times h1 h2
  · exact Derives.divide h1 h2

/-- A value within `-128 .. 127` is unchanged by the narrowing to `char`. -/
theorem toChar_of_fits (v : Int) (h1 : -128 ≤ v) (h2 : v ≤ 127) : toChar v = v := by
  unfold toChar
  omega

/-- The narrowed value is 0 exactly for the multiples of 256. -/
theorem toChar_eq_zero_iff (v : Int) : toChar v = 0 ↔ v % 256 = 0 := by
  unfold toChar
  omega

/-- The body of `evaluate` on a node that has a child. -/
theorem evaluate_node (data : symbol) (left right : Node)
    (h : left ≠ Node.nil ∨ right ≠ Node.nil) :
    evaluate (Node.mk data left right) =
      match evaluate left with
      | none => none
      | some l =>
        match evaluate right with
        | none => none
        | some r => combine data l r := by
  rcases left with _ | ⟨d1, l1, r1⟩ <;> rcases right with _ | ⟨d2, l2, r2⟩
  · simp at h
  all_goals rfl

theorem divisorZero_node (data : symbol) (left right : Node)
    (h : left ≠ Node.nil ∨ right ≠ Node.nil) :
    divisorZero (Node.mk data left right) =
      ((decide (toChar data = 47) && decide (evaluate right = some 0)) || divisorZero left ||
        divisorZero right) := by
  rcases left with _ | ⟨d1, l1, r1⟩ <;> rcases right with _ | ⟨d2, l2, r2⟩
  · simp at h
  all_goals rfl

theorem operandsFit_node (data : symbol) (left right : Node)
    (h : left ≠ Node.nil ∨ right ≠ Node.nil) :
    operandsFit (Node.mk data left right) =
      (fitsChar (evaluate left) && fitsChar (evaluate right) && operandsFit left &&
        operandsFit right) := by
  rcases left with _ | ⟨d1, l1, r1⟩ <;> rcases right with _ | ⟨d2, l2, r2⟩
  · simp at h
  all_goals rfl

/-- Truncation toward zero: the magnitude of `Int.tdiv a b` is the integer part of the
quotient of the magnitudes, and its sign is that of the exact quotient. -/
theorem tdiv_toward_zero (a b : Int) :
    (Int.tdiv a b).natAbs = a.natAbs / b.natAbs ∧
      (0 ≤ a → 0 < b → 0 ≤ Int.tdiv a b) ∧ (a ≤ 0 → b < 0 → 0 ≤ Int.tdiv a b) ∧
      (0 ≤ a → b < 0 → Int.tdiv a b ≤ 0) ∧ (a ≤ 0 → 0 < b → Int.tdiv a b ≤ 0) := by
  refine ⟨Int.natAbs_tdiv a b, ?_, ?_, ?_, ?_⟩
  · intro ha hb
    exact Int.tdiv_nonneg ha (by omega)
  · intro ha hb
    have h := Int.tdiv_nonneg (a := -a) (b := -b) (by omega) (by omega)
    rwa [Int.neg_tdiv_neg] at h
  · intro ha hb
    exact Int.tdiv_nonpos ha (by omega)
  · intro ha hb
    have h := Int.tdiv_nonpos (a := -a) (b := -b) (by omega) (by omega)
    rw [Int.neg_tdiv_neg] at h
    exact h

/-- A tree with a `/` node whose right subtree evaluates to 0 has no value: the division is
performed, and is undefined. -/
theorem evaluate_none_of_divisorZero (t : Node) (h : divisorZero t = true) :
    evaluate t = none := by
  induction t with
  | nil => simp [divisorZero] at h
  | mk data left right ihl ihr =>
    by_cases hn : left ≠ Node.nil ∨ right ≠ Node.nil
    · rw [divisorZero_node data left right hn] at h
      rw [evaluate_node data left right hn]
      simp only [Bool.or_eq_true, Bool.and_eq_true, decide_eq_true_eq] at h
      rcases h with (⟨h47, hr0⟩ | hl) | hr
      · cases hlv : evaluate left with
        | none => rfl
        | some lv =>
          have h0 : toChar 0 = 0 := by decide
          simp [hr0, combine, h47, h0]
      · simp [ihl hl]
      · cases hlv : evaluate left with
        | none => rfl
        | some lv => simp [ihr hr]
    · have hl : left = Node.nil := by
        by_contra hne
        exact hn (Or.inl hne)
      have hr : right = Node.nil := by
        by_contra hne
        exact hn (Or.inr hne)
      subst hl
      subst hr
      simp [divisorZero] at h

/-- Where no operand is changed by the narrowing to `char`, a tree without value has a `/`
node whose right subtree evaluates to 0. -/
theorem divisorZero_of_evaluate_none (t : Node) (hfit : operandsFit t = true)
    (h : evaluate t = none) : divisorZero t = true := by
  induction t with
  | nil => simp [evaluate] at h
  | mk data left right ihl ihr =>
    by_cases hn : left ≠ Node.nil ∨ right ≠ Node.nil
    · rw [operandsFit_node data left right hn] at hfit
      rw [evaluate_node data left right hn] at h
      rw [divisorZero_node data left right hn]
      simp only [Bool.and_eq_true] at hfit
      obtain ⟨⟨⟨_, hfr⟩, hol⟩, hor⟩ := hfit
      simp only [Bool.or_eq_true, Bool.and_eq_true, decide_eq_true_eq]
      cases hlv : evaluate left with
      | none => exact Or.inl (Or.inr (ihl hol hlv))
      | some lv =>
        cases hrv : evaluate right with
        | none => exact Or.inr (ihr hor hrv)
        | some rv =>
          rw [hlv, hrv] at h
          rw [hrv] at hfr
          simp only [fitsChar, decide_eq_true_eq] at hfr
          have hrr : toChar rv = rv := toChar_of_fits rv hfr.1 hfr.2
          simp only [combine, hrr] at h
          refine Or.inl (Or.inl ?_)
          split_ifs at h with h1 h2 h3 h4 h5
          exact ⟨h4, by rw [h5]⟩
    · have hl : left = Node.nil := by
        by_contra hne
        exact hn (Or.inl hne)
      have hr : right = Node.nil := by
        by_contra hne
        exact hn (Or.inr hne)
      subst hl
      subst hr
      simp [evaluate] at h

theorem exactValue_node (data : symbol) (left right : Node)
    (h : left ≠ Node.nil ∨ right ≠ Node.nil) :
    exactValue (Node.mk data left right) =
      if data = 43 then exactValue left + exactValue right
      else if data = 45 then exactValue left - exactValue right
      else if data = 42 then exactValue left * exactValue right
      else if data = 47 then Int.tdiv (exactValue left) (exactValue right)
      else 0 := by
  rcases left with _ | ⟨d1, l1, r1⟩ <;> rcases right with _ | ⟨d2, l2, r2⟩
  · simp at h
  all_goals rfl

theorem wellFormedTree_node (data : symbol) (left right : Node)
    (h : left ≠ Node.nil ∨ right ≠ Node.nil) :
    wellFormedTree (Node.mk data left right) =
      (decide (data = 43 ∨ data = 45 ∨ data = 42 ∨ data = 47) && wellFormedTree left &&
        wellFormedTree right) := by
  rcases left with _ | ⟨d1, l1, r1⟩ <;> rcases right with _ | ⟨d2, l2, r2⟩
  · simp at h
  all_goals rfl

theorem noZeroDivisor_node (data : symbol) (left right : Node)
    (h : left ≠ Node.nil ∨ right ≠ Node.nil) :
    noZeroDivisor (Node.mk data left right) =
      (decide (data = 47 → exactValue right ≠ 0) && noZeroDivisor left &&
        noZeroDivisor right) := by
  rcases left with _ | ⟨d1, l1, r1⟩ <;> rcases right with _ | ⟨d2, l2, r2⟩
  · simp at h
  all_goals rfl

/-- Where no operand is changed by the narrowing to `char`, `evaluate` returns the exact value
of a well-formed tree without zero divisor: the narrowing is the only way in which the two
differ on such trees. -/
theorem evaluate_exact_of_operandsFit (t : Node) (hwf : wellFormedTree t = true)
    (hfit : operandsFit t = true) (hnz : noZeroDivisor t = true) :
    evaluate t = some (exactValue t) := by
  induction t with
  | nil => simp [wellFormedTree] at hwf
  | mk data left right ihl ihr =>
    by_cases hn : left ≠ Node.nil ∨ right ≠ Node.nil
    · rw [wellFormedTree_node data left right hn] at hwf
      rw [operandsFit_node data left right hn] at hfit
      rw [noZeroDivisor_node data left right hn] at hnz
      rw [evaluate_node data left right hn, exactValue_node data left right hn]
      simp only [Bool.and_eq_true, decide_eq_true_eq] at hwf hfit hnz
      obtain ⟨⟨hop, hwl⟩, hwr⟩ := hwf
      obtain ⟨⟨⟨hfl, hfr⟩, hol⟩, hor⟩ := hfit
      obtain ⟨⟨hdiv, hnl⟩, hnr⟩ := hnz
      have hl := ihl hwl hol hnl
      have hr := ihr hwr hor hnr
      rw [hl] at hfl
      rw [hr] at hfr
      simp only [fitsChar, decide_eq_true_eq] at hfl hfr
      have hcl : toChar (exactValue left) = exactValue left :=
        toChar_of_fits _ hfl.1 hfl.2
      have hcr : toChar (exactValue right) = exactValue right :=
        toChar_of_fits _ hfr.1 hfr.2
      have h42 : toChar 42 = 42 := by decide
      have h43 : toChar 43 = 43 := by decide
      have h45 : toChar 45 = 45 := by decide
      have h47 : toChar 47 = 47 := by decide
      rw [hl, hr]
      rcases hop with h | h | h | h
      · subst h
        simp [combine, h43, hcl, hcr]
      · subst h
        simp [combine, h45, hcl, hcr]
      · subst h
        simp [combine, h42, hcl, hcr]
      · subst h
        have := hdiv rfl
        simp [combine, h47, hcl, hcr, this]
    · have hl : left = Node.nil := by
        by_contra hne
        exact hn (Or.inl hne)
      have hr : right = Node.nil := by
        by_contra hne
        exact hn (Or.inr hne)
      subst hl
      subst hr
      rfl

/-! ### Termination of the parser -/

theorem remaining_next_le_length (st : Lexer) : remaining (next st) ≤ st.file.length := by
  obtain ⟨c, file⟩ := st
  cases file with
  | nil => simp [next, remaining]
  | cons b rest =>
    have hb : ¬ ((b : Int) = EOF) := by
      unfold EOF
      omega
    simp [next, remaining, hb]
    omega

theorem remaining_next_le (st : Lexer) : remaining (next st) ≤ remaining st := by
  have := remaining_next_le_length st
  unfold remaining at this ⊢
  omega

/-- Advancing past a symbol that is not the end-of-stream sentinel consumes it. -/
theorem remaining_next_lt (st : Lexer) (h : st.c ≠ EOF) :
    remaining (next st) + 1 ≤ remaining st := by
  have := remaining_next_le_length st
  simp only [remaining, h, if_false] at this ⊢
  omega

theorem remaining_prime (s : List Nat) : remaining (prime s) = s.length := by
  cases s with
  | nil => simp [prime, next, remaining]
  | cons b rest =>
    have hb : ¬ ((b : Int) = EOF) := by
      unfold EOF
      omega
    simp [prime, next, remaining, hb]
    omega

theorem shaped_leaf (d : symbol) : shaped (Node.mk d Node.nil Node.nil) = true := rfl

theorem shaped_node (data : symbol) (left right : Node)
    (hd : data = 43 ∨ data = 45 ∨ data = 42 ∨ data = 47)
    (hl : shaped left = true) (hr : shaped right = true) :
    shaped (Node.mk data left right) = true := by
  rcases left with _ | ⟨d1, l1, r1⟩
  · simp [shaped] at hl
  rcases right with _ | ⟨d2, l2, r2⟩
  · simp [shaped] at hr
  simp only [shaped, Bool.and_eq_true, decide_eq_true_eq]
  exact ⟨⟨hd, hl⟩, hr⟩

theorem levels_pos_of_shaped (t : Node) (h : shaped t = true) : 1 ≤ levels t := by
  cases t with
  | nil => simp [shaped] at h
  | mk d l r => simp [levels]

/-- The parser is total: with fuel of three calls per remaining symbol (and one to three more
for the calls that end at `Literal`) each parsing function returns a tree. -/
theorem parser_total (fuel : Nat) :
    ∀ st : Lexer,
      (3 * remaining st + 1 ≤ fuel → Returns (Term fuel st) st) ∧
      (3 * remaining st + 2 ≤ fuel → Returns (Factor fuel st) st) ∧
      (3 * remaining st + 3 ≤ fuel → Returns (Expression fuel st) st) := by
  induction fuel with
  | zero =>
    intro st
    exact ⟨fun h => by omega, fun h => by omega, fun h => by omega⟩
  | succ n ih =>
    intro st
    refine ⟨?_, ?_, ?_⟩
    · intro hf
      by_cases hc : st.c = 123
      · have hne : st.c ≠ EOF := by
          rw [hc]
          decide
        have hlt := remaining_next_lt st hne
        obtain ⟨T, st1, hE, hsh, hlv⟩ := (ih (next st)).2.2 (by omega)
        have hle := remaining_next_le st1
        exact ⟨T, next st1, by simp [Term, hc, hE], hsh, by omega⟩
      · have hle := remaining_next_le st
        refine ⟨Node.mk st.c Node.nil Node.nil, next st, by simp [Term, hc, Literal], rfl, ?_⟩
        simp only [levels]
        omega
    · intro hf
      obtain ⟨T1, st1, hT, hsh1, hlv1⟩ := (ih st).1 (by omega)
      have hpos1 := levels_pos_of_shaped T1 hsh1
      by_cases h43 : st1.c = 43
      · have hne : st1.c ≠ EOF := by
          rw [h43]
          decide
        have hlt := remaining_next_lt st1 hne
        obtain ⟨T2, st2, hF, hsh2, hlv2⟩ := (ih (next st1)).2.1 (by omega)
        have hpos2 := levels_pos_of_shaped T2 hsh2
        refine ⟨Node.mk 43 T1 T2, st2, by simp [Factor, hT, h43, hF],
          shaped_node 43 T1 T2 (by simp) hsh1 hsh2, ?_⟩
        simp only [levels]
        omega
      · by_cases h45 : st1.c = 45
        · have hne : st1.c ≠ EOF := by
            rw [h45]
            decide
          have hlt := remaining_next_lt st1 hne
          obtain ⟨T2, st2, hF, hsh2, hlv2⟩ := (ih (next st1)).2.1 (by omega)
          have hpos2 := levels_pos_of_shaped T2 hsh2
          refine ⟨Node.mk 45 T1 T2, st2, by simp [Factor, hT, h43, h45, hF],
            shaped_node 45 T1 T2 (by simp) hsh1 hsh2, ?_⟩
          simp only [levels]
          omega
        · exact ⟨T1, st1, by simp [Factor, hT, h43, h45], hsh1, hlv1⟩
    · intro hf
      obtain ⟨T1, st1, hT, hsh1, hlv1⟩ := (ih st).2.1 (by omega)
      have hpos1 := levels_pos_of_shaped T1 hsh1
      by_cases h42 : st1.c = 42
      · have hne : st1.c ≠ EOF := by
          rw [h42]
          decide
        have hlt := remaining_next_lt st1 hne
        obtain ⟨T2, st2, hF, hsh2, hlv2⟩ := (ih (next st1)).2.2 (by omega)
        have hpos2 := levels_pos_of_shaped T2 hsh2
        refine ⟨Node.mk 42 T1 T2, st2, by simp [Expression, hT, h42, hF],
          shaped_node 42 T1 T2 (by simp) hsh1 hsh2, ?_⟩
        simp only [levels]
        omega
      · by_cases h47 : st1.c = 47
        · have hne : st1.c ≠ EOF := by
            rw [h47]
            decide
          have hlt := remaining_next_lt st1 hne
          obtain ⟨T2, st2, hF, hsh2, hlv2⟩ := (ih (next st1)).2.2 (by omega)
          have hpos2 := levels_pos_of_shaped T2 hsh2
          refine ⟨Node.mk 47 T1 T2, st2, by simp [Expression, hT, h42, h47, hF],
            shaped_node 47 T1 T2 (by simp) hsh1 hsh2, ?_⟩
          simp only [levels]
          omega
        · exact ⟨T1, st1, by simp [Expression, hT, h42, h47], hsh1, hlv1⟩

/-- A result obtained with some fuel is obtained with one more unit of fuel. -/
theorem fuel_succ (n : Nat) :
    ∀ (st : Lexer) (r : Node × Lexer),
      (Term n st = some r → Term (n + 1) st = some r) ∧
      (Factor n st = some r → Factor (n + 1) st = some r) ∧
      (Expression n st = some r → Expression (n + 1) st = some r) := by
  induction n with
  | zero =>
    intro st r
    simp [Term, Factor, Expression]
  | succ n ih =>
    intro st r
    refine ⟨?_, ?_, ?_⟩
    · intro h
      rw [Term] at h ⊢
      by_cases hc : st.c = 123
      · simp only [hc, if_true] at h ⊢
        cases hE : Expression n (next st) with
        | none => simp [hE] at h
        | some p =>
          rw [(ih (next st) p).2.2 hE]
          rw [hE] at h
          exact h
      · simp only [hc, if_false] at h ⊢
        exact h
    · intro h
      rw [Factor] at h ⊢
      cases hT : Term n st with
      | none => simp [hT] at h
      | some p =>
        obtain ⟨T1, st1⟩ := p
        rw [(ih st (T1, st1)).1 hT]
        rw [hT] at h
        simp only at h ⊢
        by_cases h43 : st1.c = 43
        · simp only [h43, if_true] at h ⊢
          cases hF : Factor n (next st1) with
          | none => simp [hF] at h
          | some q =>
            rw [(ih (next st1) q).2.1 hF]
            rw [hF] at h
            exact h
        · by_cases h45 : st1.c = 45
          · simp only [h43, h45, if_true, if_false] at h ⊢
            cases hF : Factor n (next st1) with
            | none => simp [hF] at h
            | some q =>
              rw [(ih (next st1) q).2.1 hF]
              rw [hF] at h
              exact h
          · simp only [h43, h45, if_false] at h ⊢
            exact h
    · intro h
      rw [Expression] at h ⊢
      cases hT : Factor n st with
      | none => simp [hT] at h
      | some p =>
        obtain ⟨T1, st1⟩ := p
        rw [(ih st (T1, st1)).2.1 hT]
        rw [hT] at h
        simp only at h ⊢
        by_cases h42 : st1.c = 42
        · simp only [h42, if_true] at h ⊢
          cases hF : Expression n (next st1) with
          | none => simp [hF] at h
          | some q =>
            rw [(ih (next st1) q).2.2 hF]
            rw [hF] at h
            exact h
        · by_cases h47 : st1.c = 47
          · simp only [h42, h47, if_true, if_false] at h ⊢
            cases hF : Expression n (next st1) with
            | none => simp [hF] at h
            | some q =>
              rw [(ih (next st1) q).2.2 hF]
              rw [hF] at h
              exact h
          · simp only [h42, h47, if_false] at h ⊢
            exact h

/-- The result of `Expression` does not depend on the fuel, once there is enough of it. -/
theorem expression_fuel_le (n m : Nat) (h : n ≤ m) (st : Lexer) (r : Node × Lexer)
    (hr : Expression n st = some r) : Expression m st = some r := by
  induction m with
  | zero =>
    have : n = 0 := by omega
    subst this
    exact hr
  | succ k ih =>
    by_cases hk : n ≤ k
    · exact (fuel_succ k st r).2.2 (ih hk)
    · have : n = k + 1 := by omega
      subst this
      exact hr

/-- `Expression` returns a shaped tree on every input, with any fuel of at least three calls
per input symbol plus three, and the tree has no more levels than the input has symbols,
plus one. -/
theorem expression_total (s : List Nat) (fuel : Nat) (hfuel : 3 * s.length + 3 ≤ fuel) :
    ∃ T st, Expression fuel (prime s) = some (T, st) ∧ shaped T = true ∧
      levels T ≤ s.length + 1 := by
  obtain ⟨T, st, hE, hsh, hlv⟩ :=
    (parser_total fuel (prime s)).2.2 (by rw [remaining_prime]; exact hfuel)
  rw [remaining_prime] at hlv
  exact ⟨T, st, hE, hsh, by omega⟩

theorem shaped_ne_nil (t : Node) (h : shaped t = true) : t ≠ Node.nil := by
  rintro rfl
  simp [shaped] at h

theorem wellFormedTree_mk (data : symbol) (left right : Node)
    (hd : data = 43 ∨ data = 45 ∨ data = 42 ∨ data = 47)
    (hl : wellFormedTree left = true) (hr : wellFormedTree right = true) :
    wellFormedTree (Node.mk data left right) = true := by
  have hn : left ≠ Node.nil ∨ right ≠ Node.nil := by
    left
    rintro rfl
    simp [wellFormedTree] at hl
  rw [wellFormedTree_node data left right hn]
  simp only [Bool.and_eq_true, decide_eq_true_eq]
  exact ⟨⟨hd, hl⟩, hr⟩

/-- The tree of a derivation is well formed: digits at the leaves, operators with two children
inside. -/
theorem derives_wellFormedTree {r : Rule} {s : List Nat} {T : Node} (h : Derives r s T) :
    wellFormedTree T = true := by
  induction h with
  | digit d h0 h9 =>
    simp only [wellFormedTree, decide_eq_true_eq]
    exact ⟨Int.ofNat_le.mpr h0, Int.ofNat_le.mpr h9⟩
  | literal _ ih => exact ih
  | group _ ih => exact ih
  | term _ ih => exact ih
  | factor _ ih => exact ih
  | plus _ _ ih1 ih2 => exact wellFormedTree_mk 43 _ _ (by simp) ih1 ih2
  | minus _ _ ih1 ih2 => exact wellFormedTree_mk 45 _ _ (by simp) ih1 ih2
  | times _ _ ih1 ih2 => exact wellFormedTree_mk 42 _ _ (by simp) ih1 ih2
  | divide _ _ ih1 ih2 => exact wellFormedTree_mk 47 _ _ (by simp) ih1 ih2

theorem iterate_next_of_exhausted (st : Lexer) (h : st.file = []) (k : Nat) :
    Nat.iterate next (k + 1) st = atEOF := by
  induction k with
  | zero =>
    obtain ⟨c, file⟩ := st
    simp only at h
    subst h
    rfl
  | succ k ih =>
    rw [Function.iterate_succ_apply', ih]
    rfl

/-! ### Symbols of the input and labels of the tree -/

theorem fringe_node (data : symbol) (left right : Node)
    (h : left ≠ Node.nil ∨ right ≠ Node.nil) :
    fringe (Node.mk data left right) = fringe left ++ fringe right := by
  rcases left with _ | ⟨d1, l1, r1⟩ <;> rcases right with _ | ⟨d2, l2, r2⟩
  · simp at h
  all_goals rfl

theorem internalCount_node (data : symbol) (left right : Node)
    (h : left ≠ Node.nil ∨ right ≠ Node.nil) :
    internalCount (Node.mk data left right) = internalCount left + internalCount right + 1 := by
  rcases left with _ | ⟨d1, l1, r1⟩ <;> rcases right with _ | ⟨d2, l2, r2⟩
  · simp at h
  all_goals rfl

/-- An operator node over two trees that preserve their strings preserves the two strings
joined by the operator character. -/
theorem preserves_node (o : Nat) (ho : o = 42 ∨ o = 43 ∨ o = 45 ∨ o = 47)
    (s1 s2 : List Nat) (T1 T2 : Node) (h1 : Preserves s1 T1) (h2 : Preserves s2 T2) :
    Preserves (s1 ++ o :: s2) (Node.mk (o : Int) T1 T2) := by
  obtain ⟨hn1, hi1, hf1, hc1⟩ := h1
  obtain ⟨_, hi2, hf2, hc2⟩ := h2
  have hb : isBrace o = false := by
    simp only [isBrace, decide_eq_false_iff_not]
    omega
  have hd : isDigit o = false := by
    simp only [isDigit, decide_eq_false_iff_not]
    omega
  have hop : isOperator o = true := by
    simp only [isOperator, decide_eq_true_eq]
    omega
  refine ⟨by simp, ?_, ?_, ?_⟩
  · simp [inorder, hi1, hi2, List.filter_cons, hb]
  · rw [fringe_node _ _ _ (Or.inl hn1)]
    simp [hf1, hf2, List.filter_cons, hd]
  · rw [internalCount_node _ _ _ (Or.inl hn1)]
    simp [hc1, hc2, List.countP_cons, hop]
    omega

/-- The tree of a derivation preserves the symbols of the derived string. -/
theorem derives_preserves {r : Rule} {s : List Nat} {T : Node} (h : Derives r s T) :
    Preserves s T := by
  induction h with
  | digit d h0 h9 =>
    have hb : isBrace d = false := by
      simp only [isBrace, decide_eq_false_iff_not]
      omega
    have hd : isDigit d = true := by
      simp only [isDigit, decide_eq_true_eq]
      omega
    have hop : isOperator d = false := by
      simp only [isOperator, decide_eq_false_iff_not]
      omega
    refine ⟨by simp, ?_, ?_, ?_⟩
    · simp [inorder, List.filter_cons, hb]
    · simp [fringe, List.filter_cons, hd]
    · simp [internalCount, List.countP_cons, hop]
  | literal _ ih => exact ih
  | term _ ih => exact ih
  | factor _ ih => exact ih
  | group _ ih =>
    obtain ⟨hn, hi, hf, hc⟩ := ih
    refine ⟨hn, ?_, ?_, ?_⟩
    · simp [hi, List.filter_cons, isBrace]
    · simp [hf, List.filter_cons, isDigit]
    · simp [hc, List.countP_cons, isOperator]
  | plus _ _ ih1 ih2 => exact preserves_node 43 (by simp) _ _ _ _ ih1 ih2
  | minus _ _ ih1 ih2 => exact preserves_node 45 (by simp) _ _ _ _ ih1 ih2
  | times _ _ ih1 ih2 => exact preserves_node 42 (by simp) _ _ _ _ ih1 ih2
  | divide _ _ ih1 ih2 => exact preserves_node 47 (by simp) _ _ _ _ ih1 ih2

/-! ## Properties of the parser and of the evaluator -/

/-- C1: for every string `s` derivable from `<expression>` in the documented grammar,
`Expression`, started with the lexer primed on the first character of `s`, returns the AST
of that derivation and leaves the current symbol at end-of-stream with all of `s` consumed;
any fuel of at least three times the length of `s` is enough. -/
theorem C1_expression_returns_derivation_tree (s : List Nat) (T : Node)
    (h : Derives Rule.expression s T) (fuel : Nat) (hfuel : 3 * s.length ≤ fuel) :
    Expression fuel (prime s) = some (T, { c := EOF, file := [] }) :=
  expression_derives h fuel hfuel

theorem C1_expression_returns_derivation_tree_witness :
    Derives Rule.expression (bytes "{5*6}/2+5")
        (Node.mk 47 (Node.mk 42 (leaf 53) (leaf 54)) (Node.mk 43 (leaf 50) (leaf 53))) ∧
      3 * (bytes "{5*6}/2+5").length ≤ 27 ∧
      Expression 27 (prime (bytes "{5*6}/2+5")) =
        some (Node.mk 47 (Node.mk 42 (leaf 53) (leaf 54)) (Node.mk 43 (leaf 50) (leaf 53)),
          { c := EOF, file := [] }) :=
  ⟨derives_header_example, by decide,
    C1_expression_returns_derivation_tree _ _ derives_header_example 27 (by decide)⟩

/-- C2, at the input `9*9*9*9`: the tree `Expression` builds is well formed and has no `/`
node, its exact value is 6561, and `evaluate` returns -351, because the value 729 of the
right subtree `9*9*9` is stored in a `char` and becomes -39 before it is multiplied by 9.
So `evaluate` does not return the exact value of every well-formed tree without a zero
divisor. -/
theorem C2_evaluate_not_exact_on_9999 :
    Expression 12 (prime (bytes "9*9*9*9")) =
        some (Node.mk 42 (leaf 57) (Node.mk 42 (leaf 57) (Node.mk 42 (leaf 57) (leaf 57))),
          { c := EOF, file := [] }) ∧
      wellFormedTree
        (Node.mk 42 (leaf 57) (Node.mk 42 (leaf 57) (Node.mk 42 (leaf 57) (leaf 57)))) = true ∧
      noZeroDivisor
        (Node.mk 42 (leaf 57) (Node.mk 42 (leaf 57) (Node.mk 42 (leaf 57) (leaf 57)))) = true ∧
      exactValue
        (Node.mk 42 (leaf 57) (Node.mk 42 (leaf 57) (Node.mk 42 (leaf 57) (leaf 57)))) = 6561 ∧
      evaluate (Node.mk 42 (leaf 57) (Node.mk 42 (leaf 57) (leaf 57))) = some 729 ∧
      toChar 729 = -39 ∧
      evaluate
        (Node.mk 42 (leaf 57) (Node.mk 42 (leaf 57) (Node.mk 42 (leaf 57) (leaf 57)))) =
          some (-351) := by
  decide

/-- C3: precedence inversion.  For all digits `a b c`, every additive operator `p` and every
multiplicative operator `m`, the input `a p b m c` parses to `m (p a b) c` and the input
`a m b p c` parses to `m a (p b c)`; and `2+3*4` evaluates to 20, `2*3+4` to 14. -/
theorem C3_precedence_inversion (a b c p m fuel : Nat)
    (ha : 48 ≤ a ∧ a ≤ 57) (hb : 48 ≤ b ∧ b ≤ 57) (hc : 48 ≤ c ∧ c ≤ 57)
    (hp : p = 43 ∨ p = 45) (hm : m = 42 ∨ m = 47) (hfuel : 15 ≤ fuel) :
    Expression fuel (prime [a, p, b, m, c]) =
        some (Node.mk (m : Int) (Node.mk (p : Int) (leaf (a : Int)) (leaf (b : Int)))
          (leaf (c : Int)), { c := EOF, file := [] }) ∧
      Expression fuel (prime [a, m, b, p, c]) =
        some (Node.mk (m : Int) (leaf (a : Int))
          (Node.mk (p : Int) (leaf (b : Int)) (leaf (c : Int))), { c := EOF, file := [] }) ∧
      mainOutput 15 (bytes "2+3*4") = some 20 ∧ mainOutput 15 (bytes "2*3+4") = some 14 := by
  have da := fun r => derives_digit r a ha.1 ha.2
  have db := fun r => derives_digit r b hb.1 hb.2
  have dc := fun r => derives_digit r c hc.1 hc.2
  refine ⟨?_, ?_, by decide, by decide⟩
  · exact expression_derives
      (derives_multiplicative m hm (derives_additive p hp (da Rule.term) (db Rule.factor))
        (dc Rule.expression))
      fuel (by simpa using hfuel)
  · exact expression_derives
      (derives_multiplicative m hm (da Rule.factor)
        (Derives.factor (derives_additive p hp (db Rule.term) (dc Rule.factor))))
      fuel (by simpa using hfuel)

theorem C3_precedence_inversion_witness :
    Expression 15 (prime [50, 43, 51, 42, 52]) =
        some (Node.mk 42 (Node.mk 43 (leaf 50) (leaf 51)) (leaf 52),
          { c := EOF, file := [] }) ∧
      Expression 15 (prime [50, 42, 51, 43, 52]) =
        some (Node.mk 42 (leaf 50) (Node.mk 43 (leaf 51) (leaf 52)),
          { c := EOF, file := [] }) ∧
      mainOutput 15 (bytes "2+3*4") = some 20 ∧ mainOutput 15 (bytes "2*3+4") = some 14 :=
  C3_precedence_inversion 50 51 52 43 42 15 (by decide) (by decide) (by decide) (by decide)
    (by decide) (by decide)

/-- C4: right-associativity.  For all digits `a b c` and operators `o1 o2` taken both from
`+ -` or both from `* /`, the input `a o1 b o2 c` parses to `o1 a (o2 b c)` and never to
`o2 (o1 a b) c`; and `1-2-3` evaluates to 2, `8/4/2` to 4. -/
theorem C4_right_associativity (a b c o1 o2 fuel : Nat)
    (ha : 48 ≤ a ∧ a ≤ 57) (hb : 48 ≤ b ∧ b ≤ 57) (hc : 48 ≤ c ∧ c ≤ 57)
    (ho : ((o1 = 43 ∨ o1 = 45) ∧ (o2 = 43 ∨ o2 = 45)) ∨
      ((o1 = 42 ∨ o1 = 47) ∧ (o2 = 42 ∨ o2 = 47)))
    (hfuel : 15 ≤ fuel) :
    Expression fuel (prime [a, o1, b, o2, c]) =
        some (Node.mk (o1 : Int) (leaf (a : Int))
          (Node.mk (o2 : Int) (leaf (b : Int)) (leaf (c : Int))), { c := EOF, file := [] }) ∧
      (∀ st : Lexer, Expression fuel (prime [a, o1, b, o2, c]) ≠
        some (Node.mk (o2 : Int) (Node.mk (o1 : Int) (leaf (a : Int)) (leaf (b : Int)))
          (leaf (c : Int)), st)) ∧
      mainOutput 15 (bytes "1-2-3") = some 2 ∧ mainOutput 15 (bytes "8/4/2") = some 4 := by
  have da := fun r => derives_digit r a ha.1 ha.2
  have db := fun r => derives_digit r b hb.1 hb.2
  have dc := fun r => derives_digit r c hc.1 hc.2
  have key : Expression fuel (prime [a, o1, b, o2, c]) =
      some (Node.mk (o1 : Int) (leaf (a : Int))
        (Node.mk (o2 : Int) (leaf (b : Int)) (leaf (c : Int))), { c := EOF, file := [] }) := by
    rcases ho with ⟨h1, h2⟩ | ⟨h1, h2⟩
    · exact expression_derives
        (Derives.factor (derives_additive o1 h1 (da Rule.term)
          (derives_additive o2 h2 (db Rule.term) (dc Rule.factor))))
        fuel (by simpa using hfuel)
    · exact expression_derives
        (derives_multiplicative o1 h1 (da Rule.factor)
          (derives_multiplicative o2 h2 (db Rule.factor) (dc Rule.expression)))
        fuel (by simpa using hfuel)
  refine ⟨key, ?_, by decide, by decide⟩
  intro st hst
  rw [key] at hst
  simp [leaf] at hst

theorem C4_right_associativity_witness :
    Expression 15 (prime [49, 45, 50, 45, 51]) =
        some (Node.mk 45 (leaf 49) (Node.mk 45 (leaf 50) (leaf 51)),
          { c := EOF, file := [] }) ∧
      (∀ st : Lexer, Expression 15 (prime [49, 45, 50, 45, 51]) ≠
        some (Node.mk 45 (Node.mk 45 (leaf 49) (leaf 50)) (leaf 51), st)) ∧
      mainOutput 15 (bytes "1-2-3") = some 2 ∧ mainOutput 15 (bytes "8/4/2") = some 4 :=
  C4_right_associativity 49 50 51 45 45 15 (by decide) (by decide) (by decide) (by decide)
    (by decide)

/-- C5: grouping is a pass-through.  For every well-formed expression `e` with tree `Te`,
parsing `{e}` returns the same tree `Te` as parsing `e`; and for well-formed `e`, `f` and
every operator `o`, parsing `{e}o{f}` returns the node `o Te Tf`, whatever operators `e` and
`f` contain; and `{2+3}*4` evaluates to 20. -/
theorem C5_grouping_pass_through (e f : List Nat) (Te Tf : Node) (o fuel : Nat)
    (he : Derives Rule.expression e Te) (hf : Derives Rule.expression f Tf)
    (ho : o = 43 ∨ o = 45 ∨ o = 42 ∨ o = 47)
    (hfuel : 3 * (e.length + f.length + 5) ≤ fuel) :
    Expression fuel (prime e) = some (Te, { c := EOF, file := [] }) ∧
      Expression fuel (prime (123 :: (e ++ [125]))) = some (Te, { c := EOF, file := [] }) ∧
      Expression fuel (prime ((123 :: (e ++ [125])) ++ o :: (123 :: (f ++ [125])))) =
        some (Node.mk (o : Int) Te Tf, { c := EOF, file := [] }) ∧
      mainOutput 21 (bytes "{2+3}*4") = some 20 := by
  refine ⟨expression_derives he fuel (by omega),
    expression_derives (derives_braces he).2.2 fuel (by simp; omega), ?_, by decide⟩
  have hlen : 3 * ((123 :: (e ++ [125])) ++ o :: (123 :: (f ++ [125]))).length ≤ fuel := by
    simp
    omega
  rcases ho with h | h | h | h
  · exact expression_derives (Derives.factor (derives_additive o (Or.inl h)
      (derives_braces he).1 (derives_braces hf).2.1)) fuel hlen
  · exact expression_derives (Derives.factor (derives_additive o (Or.inr h)
      (derives_braces he).1 (derives_braces hf).2.1)) fuel hlen
  · exact expression_derives (derives_multiplicative o (Or.inl h)
      (derives_braces he).2.1 (derives_braces hf).2.2) fuel hlen
  · exact expression_derives (derives_multiplicative o (Or.inr h)
      (derives_braces he).2.1 (derives_braces hf).2.2) fuel hlen

/-- The string `2+3` is a well-formed expression with tree `+ 2 3`. -/
theorem derives_2_plus_3 :
    Derives Rule.expression [50, 43, 51] (Node.mk 43 (leaf 50) (leaf 51)) :=
  Derives.factor (Derives.plus (derives_digit Rule.term 50 (by decide) (by decide))
    (derives_digit Rule.factor 51 (by decide) (by decide)))

/-- The string `4*5` is a well-formed expression with tree `* 4 5`. -/
theorem derives_4_times_5 :
    Derives Rule.expression [52, 42, 53] (Node.mk 42 (leaf 52) (leaf 53)) :=
  Derives.times (derives_digit Rule.factor 52 (by decide) (by decide))
    (derives_digit Rule.expression 53 (by decide) (by decide))

theorem C5_grouping_pass_through_witness :
    Expression 33 (prime [50, 43, 51]) =
        some (Node.mk 43 (leaf 50) (leaf 51), { c := EOF, file := [] }) ∧
      Expression 33 (prime (123 :: ([50, 43, 51] ++ [125]))) =
        some (Node.mk 43 (leaf 50) (leaf 51), { c := EOF, file := [] }) ∧
      Expression 33
          (prime ((123 :: ([50, 43, 51] ++ [125])) ++ 45 :: (123 :: ([52, 42, 53] ++ [125])))) =
        some (Node.mk 45 (Node.mk 43 (leaf 50) (leaf 51)) (Node.mk 42 (leaf 52) (leaf 53)),
          { c := EOF, file := [] }) ∧
      mainOutput 21 (bytes "{2+3}*4") = some 20 :=
  C5_grouping_pass_through [50, 43, 51] [52, 42, 53] _ _ 45 33 derives_2_plus_3
    derives_4_times_5 (by decide) (by decide)

/-- C6: for every single-digit input `d`, `Expression` returns a tree with exactly one node,
the leaf with no children holding `d`, and `evaluate` of it returns the numeric value of `d`,
between 0 and 9. -/
theorem C6_single_digit (d fuel : Nat) (h0 : 48 ≤ d) (h9 : d ≤ 57) (hfuel : 3 ≤ fuel) :
    Expression fuel (prime [d]) =
        some (Node.mk (d : Int) Node.nil Node.nil, { c := EOF, file := [] }) ∧
      size (Node.mk (d : Int) Node.nil Node.nil) = 1 ∧
      evaluate (Node.mk (d : Int) Node.nil Node.nil) = some ((d : Int) - 48) ∧
      0 ≤ (d : Int) - 48 ∧ (d : Int) - 48 ≤ 9 := by
  refine ⟨expression_derives (derives_digit Rule.expression d h0 h9) fuel (by simpa using hfuel),
    rfl, rfl, by omega, by omega⟩

theorem C6_single_digit_witness :
    Expression 3 (prime [55]) = some (Node.mk 55 Node.nil Node.nil, { c := EOF, file := [] }) ∧
      size (Node.mk 55 Node.nil Node.nil) = 1 ∧
      evaluate (Node.mk 55 Node.nil Node.nil) = some (55 - 48) ∧
      (0 : Int) ≤ 55 - 48 ∧ (55 : Int) - 48 ≤ 9 :=
  C6_single_digit 55 3 (by decide) (by decide) (by decide)

/-- C7: division truncates toward zero.  For every `/` node whose two children evaluate to
`a` and `b`, both within `-128 .. 127` and `b` non-zero, `evaluate` returns the quotient of
`a` by `b` rounded toward zero: its magnitude is the integer part of `|a| / |b|`, it is
non-negative when `a` and `b` have the same sign and non-positive when they have opposite
signs; and `{7}/2` evaluates to 3, `{1-8}/2` to -3. -/
theorem C7_division_truncates_toward_zero (left right : Node) (a b : Int)
    (hl : evaluate left = some a) (hr : evaluate right = some b)
    (ha : -128 ≤ a ∧ a ≤ 127) (hb : -128 ≤ b ∧ b ≤ 127) (hb0 : b ≠ 0) :
    (∃ q : Int, evaluate (Node.mk 47 left right) = some q ∧
        q.natAbs = a.natAbs / b.natAbs ∧
        (0 ≤ a → 0 < b → 0 ≤ q) ∧ (a ≤ 0 → b < 0 → 0 ≤ q) ∧
        (0 ≤ a → b < 0 → q ≤ 0) ∧ (a ≤ 0 → 0 < b → q ≤ 0)) ∧
      mainOutput 15 (bytes "{7}/2") = some 3 ∧ mainOutput 21 (bytes "{1-8}/2") = some (-3) := by
  refine ⟨⟨Int.tdiv a b, ?_, tdiv_toward_zero a b⟩, by decide, by decide⟩
  have hright : right ≠ Node.nil := by
    rintro rfl
    simp only [evaluate, Option.some.injEq] at hr
    exact hb0 hr.symm
  rw [evaluate_node 47 left right (Or.inr hright), hl, hr]
  have h47 : toChar 47 = 47 := by decide
  simp [combine, h47, toChar_of_fits a ha.1 ha.2, toChar_of_fits b hb.1 hb.2, hb0]

theorem C7_division_truncates_toward_zero_witness :
    (∃ q : Int,
        evaluate (Node.mk 47 (Node.mk 45 (leaf 49) (leaf 56)) (leaf 50)) = some q ∧
        q.natAbs = (-7 : Int).natAbs / (2 : Int).natAbs ∧
        ((0 : Int) ≤ -7 → (0 : Int) < 2 → 0 ≤ q) ∧ ((-7 : Int) ≤ 0 → (2 : Int) < 0 → 0 ≤ q) ∧
        ((0 : Int) ≤ -7 → (2 : Int) < 0 → q ≤ 0) ∧ ((-7 : Int) ≤ 0 → (0 : Int) < 2 → q ≤ 0)) ∧
      mainOutput 15 (bytes "{7}/2") = some 3 ∧ mainOutput 21 (bytes "{1-8}/2") = some (-3) :=
  C7_division_truncates_toward_zero (Node.mk 45 (leaf 49) (leaf 56)) (leaf 50) (-7) 2
    (by decide) (by decide) (by decide) (by decide) (by decide)

/-- C8: trailing content is ignored.  For every well-formed expression `s` and every
remainder `t` whose first character is none of `+ - * /`, `Expression` on `s` followed by `t`
returns the same tree as on `s` alone and leaves the current symbol on the first character
of `t` (end-of-stream if `t` is empty) with the rest of `t` unread. -/
theorem C8_trailing_content_ignored (s t : List Nat) (T : Node) (fuel : Nat)
    (hs : Derives Rule.expression s T)
    (ht : ∀ b, t.head? = some b → b ≠ 43 ∧ b ≠ 45 ∧ b ≠ 42 ∧ b ≠ 47)
    (hfuel : 3 * s.length ≤ fuel) :
    Expression fuel (prime s) = some (T, { c := EOF, file := [] }) ∧
      Expression fuel (prime (s ++ t)) =
        some (T, { c := (match t.head? with
                         | some b => (b : Int)
                         | none => EOF),
                   file := t.tail }) := by
  refine ⟨expression_derives hs fuel hfuel, ?_⟩
  cases t with
  | nil => simpa using expression_derives hs fuel hfuel
  | cons b rest =>
    have hb := ht b rfl
    have := run_derives hs (b :: rest) fuel
      (by
        obtain ⟨h1, h2, h3, h4⟩ := hb
        simp only [stopsAt, prime_cons]
        refine ⟨?_, ?_, ?_, ?_⟩ <;> omega)
      (by simp [level]; omega)
    simpa [run, prime_cons] using this

theorem C8_trailing_content_ignored_witness :
    Expression 9 (prime [50, 43, 51]) =
        some (Node.mk 43 (leaf 50) (leaf 51), { c := EOF, file := [] }) ∧
      Expression 9 (prime ([50, 43, 51] ++ [125, 42, 52])) =
        some (Node.mk 43 (leaf 50) (leaf 51), { c := 125, file := [42, 52] }) :=
  C8_trailing_content_ignored [50, 43, 51] [125, 42, 52] _ 9 derives_2_plus_3 (by decide)
    (by decide)

/-- C9, at the input `1/{8*8*4}`: the tree that `Expression` builds is well formed, none of
its `/` nodes has a right subtree that evaluates to 0 (the right subtree of the only `/` node
evaluates to 256, and the exact value of the tree is the quotient of 1 by 256, which is 0),
and yet `evaluate` has no result: 256 stored in the `char rightValue` is 0 and the source
divides by it.  So `evaluate` fails in a case other than a right subtree evaluating
to 0. -/
theorem C9_fails_in_another_case :
    Expression 27 (prime (bytes "1/{8*8*4}")) =
        some (Node.mk 47 (leaf 49) (Node.mk 42 (leaf 56) (Node.mk 42 (leaf 56) (leaf 52))),
          { c := EOF, file := [] }) ∧
      wellFormedTree
        (Node.mk 47 (leaf 49) (Node.mk 42 (leaf 56) (Node.mk 42 (leaf 56) (leaf 52)))) =
          true ∧
      evaluate (Node.mk 42 (leaf 56) (Node.mk 42 (leaf 56) (leaf 52))) = some 256 ∧
      toChar 256 = 0 ∧
      divisorZero
        (Node.mk 47 (leaf 49) (Node.mk 42 (leaf 56) (Node.mk 42 (leaf 56) (leaf 52)))) =
          false ∧
      noZeroDivisor
        (Node.mk 47 (leaf 49) (Node.mk 42 (leaf 56) (Node.mk 42 (leaf 56) (leaf 52)))) =
          true ∧
      exactValue
        (Node.mk 47 (leaf 49) (Node.mk 42 (leaf 56) (Node.mk 42 (leaf 56) (leaf 52)))) = 0 ∧
      evaluate
        (Node.mk 47 (leaf 49) (Node.mk 42 (leaf 56) (Node.mk 42 (leaf 56) (leaf 52)))) =
          none := by
  decide

/-- C10, as stated, fails at the input `{5+3`: `5+3` is a well-formed expression, and
`Expression` on `{5+3` does not fail but returns the tree `+ 5 3`, with the current symbol
at end-of-stream. -/
theorem C10_unclosed_group_returns_tree :
    Derives Rule.expression (bytes "5+3") (Node.mk 43 (leaf 53) (leaf 51)) ∧
      Expression 12 (prime (123 :: bytes "5+3")) =
        some (Node.mk 43 (leaf 53) (leaf 51), { c := EOF, file := [] }) ∧
      Expression 12 (prime (123 :: bytes "5+3")) ≠ none :=
  ⟨Derives.factor (Derives.plus (derives_digit Rule.term 53 (by decide) (by decide))
      (derives_digit Rule.factor 51 (by decide) (by decide))),
    by decide, by decide⟩

/-- C10, amended: an unclosed group is accepted.  For every well-formed expression `e`,
parsing the input `{e` that ends with no closing symbol returns the tree of `e` and leaves
the current symbol at end-of-stream; no error is raised. -/
theorem C10_unclosed_group_accepted (e : List Nat) (Te : Node) (fuel : Nat)
    (he : Derives Rule.expression e Te) (hfuel : 3 * e.length + 3 ≤ fuel) :
    Expression fuel (prime (123 :: e)) = some (Te, { c := EOF, file := [] }) := by
  obtain ⟨n, rfl⟩ : ∃ n, fuel = n + 3 := ⟨fuel - 3, by omega⟩
  have h := expression_derives he n (by omega)
  have hT : Term (n + 1) (prime (123 :: e)) = some (Te, atEOF) := by
    simp [Term, prime_cons, next_eq_prime, h, next_atEOF]
  have hF : Factor (n + 2) (prime (123 :: e)) = some (Te, atEOF) := by
    simp [Factor, hT, atEOF, EOF]
  simp [Expression, hF, atEOF, EOF]

theorem C10_unclosed_group_accepted_witness :
    Derives Rule.expression [50, 43, 51] (Node.mk 43 (leaf 50) (leaf 51)) ∧
      3 * [50, 43, 51].length + 3 ≤ 12 ∧
      Expression 12 (prime (123 :: [50, 43, 51])) =
        some (Node.mk 43 (leaf 50) (leaf 51), { c := EOF, file := [] }) :=
  ⟨derives_2_plus_3, by decide,
    C10_unclosed_group_accepted [50, 43, 51] _ 12 derives_2_plus_3 (by decide)⟩

/-- C11: the parser has no error path and always terminates.  For every input stream `s`,
well-formed or not, `Expression` returns a tree with any fuel of at least `3 * |s| + 3`, and
the same one whatever that fuel is; once the stream is exhausted every advance yields the
end-of-stream sentinel again; `Literal` accepts any current symbol; and the empty input
yields a single leaf holding the end-of-stream sentinel. -/
theorem C11_parser_always_returns (s : List Nat) (fuel : Nat)
    (hfuel : 3 * s.length + 3 ≤ fuel) :
    (∃ T st, T ≠ Node.nil ∧ Expression fuel (prime s) = some (T, st)) ∧
      Expression fuel (prime s) = Expression (3 * s.length + 3) (prime s) ∧
      (∀ (st : Lexer) (k : Nat), st.file = [] →
        Nat.iterate next (k + 1) st = { c := EOF, file := [] }) ∧
      (∀ st : Lexer, Literal st = (Node.mk st.c Node.nil Node.nil, next st)) ∧
      Expression fuel (prime []) =
        some (Node.mk EOF Node.nil Node.nil, { c := EOF, file := [] }) ∧
      size (Node.mk EOF Node.nil Node.nil) = 1 := by
  obtain ⟨T, st, hE, hsh, _⟩ := expression_total s (3 * s.length + 3) (Nat.le_refl _)
  have hfull := expression_fuel_le (3 * s.length + 3) fuel hfuel (prime s) (T, st) hE
  refine ⟨⟨T, st, shaped_ne_nil T hsh, hfull⟩, by rw [hfull, hE],
    fun st k h => iterate_next_of_exhausted st h k, fun st => rfl, ?_, rfl⟩
  exact expression_fuel_le 3 fuel (by omega) (prime []) _ (by decide)

theorem C11_parser_always_returns_witness :
    3 * [43, 125].length + 3 ≤ 9 ∧
      (∃ T st, T ≠ Node.nil ∧ Expression 9 (prime [43, 125]) = some (T, st)) ∧
      Expression 9 (prime []) =
        some (Node.mk EOF Node.nil Node.nil, { c := EOF, file := [] }) :=
  ⟨by decide, (C11_parser_always_returns [43, 125] 9 (by decide)).1,
    (C11_parser_always_returns [43, 125] 9 (by decide)).2.2.2.2.1⟩

/-- C12: the shape invariant of the AST.  For every input stream, every node of the tree that
`Expression` returns is a leaf with both children absent or an internal node holding one of
`+ - * /` with both children present; and when the input is a well-formed expression every
leaf holds a digit character.  On other inputs a leaf holds whatever symbol `Literal` found:
in the tree of `2+*` the node built for `+` has its two children and the right one is a leaf
holding `*`. -/
theorem C12_ast_shape_invariant (s : List Nat) (fuel : Nat)
    (hfuel : 3 * s.length + 3 ≤ fuel) :
    (∃ T st, Expression fuel (prime s) = some (T, st) ∧ shaped T = true) ∧
      (∀ T, Derives Rule.expression s T →
        Expression fuel (prime s) = some (T, { c := EOF, file := [] }) ∧
          wellFormedTree T = true) ∧
      Expression 12 (prime (bytes "2+*")) =
        some (Node.mk 43 (leaf 50) (leaf 42), { c := EOF, file := [] }) := by
  obtain ⟨T, st, hE, hsh, _⟩ := expression_total s fuel hfuel
  exact ⟨⟨T, st, hE, hsh⟩,
    fun T hT => ⟨expression_derives hT fuel (by omega), derives_wellFormedTree hT⟩,
    by decide⟩

theorem C12_ast_shape_invariant_witness :
    3 * (bytes "{5*6}/2+5").length + 3 ≤ 30 ∧
      (∃ T st, Expression 30 (prime (bytes "{5*6}/2+5")) = some (T, st) ∧ shaped T = true) ∧
      Expression 30 (prime (bytes "{5*6}/2+5")) =
        some (Node.mk 47 (Node.mk 42 (leaf 53) (leaf 54)) (Node.mk 43 (leaf 50) (leaf 53)),
          { c := EOF, file := [] }) ∧
      wellFormedTree
        (Node.mk 47 (Node.mk 42 (leaf 53) (leaf 54)) (Node.mk 43 (leaf 50) (leaf 53))) = true :=
  ⟨by decide, (C12_ast_shape_invariant (bytes "{5*6}/2+5") 30 (by decide)).1,
    (C12_ast_shape_invariant (bytes "{5*6}/2+5") 30 (by decide)).2.1 _ derives_header_example⟩

/-- C13: the depth of the tree is bounded by the length of the input.  For every input
stream of `n` characters, `Expression` returns a tree whose height (the number of edges on
the longest path from the root to a leaf) is at most `n`. -/
theorem C13_height_at_most_input_length (s : List Nat) (fuel : Nat)
    (hfuel : 3 * s.length + 3 ≤ fuel) :
    ∃ T st, Expression fuel (prime s) = some (T, st) ∧ height T ≤ s.length := by
  obtain ⟨T, st, hE, _, hlv⟩ := expression_total s fuel hfuel
  refine ⟨T, st, hE, ?_⟩
  unfold height
  omega

theorem C13_height_at_most_input_length_witness :
    3 * (bytes "1+2+3").length + 3 ≤ 18 ∧
      ∃ T st, Expression 18 (prime (bytes "1+2+3")) = some (T, st) ∧
        height T ≤ (bytes "1+2+3").length :=
  ⟨by decide, C13_height_at_most_input_length (bytes "1+2+3") 18 (by decide)⟩

/-- C14: the closing symbol of a group is not checked.  Whenever the current symbol is `{`,
`Term` returns exactly the node of the inner `Expression` and then advances past one further
symbol, whatever it is, without failing; so for every well-formed `e` and every closing byte
`x` that is no operator, `{e` followed by `x` parses to the tree of `e`, and `{5+3]` and
`{5+3}` parse to the same tree and leave the lexer in the same state. -/
theorem C14_closing_symbol_not_checked (st : Lexer) (fuel : Nat) (hc : st.c = 123)
    (hfuel : 3 * remaining st ≤ fuel) :
    (∃ T st1, Expression fuel (next st) = some (T, st1) ∧
        Term (fuel + 1) st = some (T, next st1)) ∧
      (∀ (e : List Nat) (Te : Node) (x n : Nat), Derives Rule.expression e Te →
        x ≠ 42 ∧ x ≠ 43 ∧ x ≠ 45 ∧ x ≠ 47 → 3 * e.length + 3 ≤ n →
        Expression n (prime (123 :: (e ++ [x]))) = some (Te, { c := EOF, file := [] })) ∧
      Expression 18 (prime [123, 53, 43, 51, 93]) =
        some (Node.mk 43 (leaf 53) (leaf 51), { c := EOF, file := [] }) ∧
      Expression 18 (prime [123, 53, 43, 51, 125]) =
        some (Node.mk 43 (leaf 53) (leaf 51), { c := EOF, file := [] }) := by
  refine ⟨?_, ?_, by decide, by decide⟩
  · have hne : st.c ≠ EOF := by
      rw [hc]
      decide
    have hlt := remaining_next_lt st hne
    obtain ⟨T, st1, hE, _, _⟩ := (parser_total fuel (next st)).2.2 (by omega)
    exact ⟨T, st1, hE, by simp [Term, hc, hE]⟩
  · intro e Te x n he hx hn
    obtain ⟨k, rfl⟩ : ∃ k, n = k + 3 := ⟨n - 3, by omega⟩
    have h := run_derives he [x] k
      (by simp only [stopsAt, prime_cons]; refine ⟨?_, ?_, ?_, ?_⟩ <;> omega)
      (by simp [level]; omega)
    simp only [run] at h
    have hT : Term (k + 1) (prime (123 :: (e ++ [x]))) = some (Te, atEOF) := by
      simp [Term, prime_cons, next_eq_prime, h]
      rfl
    have hF : Factor (k + 2) (prime (123 :: (e ++ [x]))) = some (Te, atEOF) := by
      simp [Factor, hT, atEOF, EOF]
    simp [Expression, hF, atEOF, EOF]

theorem C14_closing_symbol_not_checked_witness :
    ({ c := 123, file := [53, 43, 51, 93] } : Lexer).c = 123 ∧
      3 * remaining { c := 123, file := [53, 43, 51, 93] } ≤ 15 ∧
      ∃ T st1, Expression 15 (next { c := 123, file := [53, 43, 51, 93] }) = some (T, st1) ∧
        Term (15 + 1) { c := 123, file := [53, 43, 51, 93] } = some (T, next st1) :=
  ⟨rfl, by decide,
    (C14_closing_symbol_not_checked { c := 123, file := [53, 43, 51, 93] } 15 rfl
      (by decide)).1⟩

/-- C15: unknown operators silently evaluate to 0.  For every node that has at least one
child and whose `data`, narrowed to a `char`, is none of `+ - * /`, `evaluate` returns 0
whatever values its subtrees evaluate to; and `evaluate` of the null pointer returns 0. -/
theorem C15_unknown_operator_yields_zero (data : Int) (left right : Node) (lv rv : Int)
    (hchild : left ≠ Node.nil ∨ right ≠ Node.nil)
    (hop : toChar data ≠ 43 ∧ toChar data ≠ 45 ∧ toChar data ≠ 42 ∧ toChar data ≠ 47)
    (hl : evaluate left = some lv) (hr : evaluate right = some rv) :
    evaluate (Node.mk data left right) = some 0 ∧ evaluate Node.nil = some 0 := by
  refine ⟨?_, rfl⟩
  rw [evaluate_node data left right hchild, hl, hr]
  simp [combine, hop.1, hop.2.1, hop.2.2.1, hop.2.2.2]

theorem C15_unknown_operator_yields_zero_witness :
    evaluate (Node.mk 63 (leaf 55) (Node.mk 42 (leaf 56) (leaf 57))) = some 0 ∧
      evaluate Node.nil = some 0 :=
  C15_unknown_operator_yields_zero 63 (leaf 55) (Node.mk 42 (leaf 56) (leaf 57)) 7 72
    (by decide) (by decide) (by decide) (by decide)

/-- C16: `evaluate` narrows each child value to 8 bits before combining.  For every node with
a child whose operator is one of `+ - * /` and whose subtrees evaluate to `lv` and `rv`, the
result is the operator applied in `int` arithmetic to `lv` and `rv` each wrapped into
`-128 .. 127` modulo 256, and is itself not wrapped; a division whose right operand is a
multiple of 256 has a zero divisor.  So `9*9*9*9` evaluates to `9 * -39 = -351`, and
`1/{8*8*4}` divides by zero. -/
theorem C16_operands_narrowed_to_char (data : Int) (left right : Node) (lv rv : Int)
    (hchild : left ≠ Node.nil ∨ right ≠ Node.nil)
    (hl : evaluate left = some lv) (hr : evaluate right = some rv) :
    (-128 ≤ toChar lv ∧ toChar lv ≤ 127 ∧ (toChar lv - lv) % 256 = 0) ∧
      (-128 ≤ toChar rv ∧ toChar rv ≤ 127 ∧ (toChar rv - rv) % 256 = 0) ∧
      (toChar data = 43 → evaluate (Node.mk data left right) = some (toChar lv + toChar rv)) ∧
      (toChar data = 45 → evaluate (Node.mk data left right) = some (toChar lv - toChar rv)) ∧
      (toChar data = 42 → evaluate (Node.mk data left right) = some (toChar lv * toChar rv)) ∧
      (toChar data = 47 → rv % 256 ≠ 0 →
        evaluate (Node.mk data left right) = some (Int.tdiv (toChar lv) (toChar rv))) ∧
      (toChar data = 47 → rv % 256 = 0 → evaluate (Node.mk data left right) = none) ∧
      Expression 12 (prime (bytes "9*9*9*9")) =
        some (Node.mk 42 (leaf 57) (Node.mk 42 (leaf 57) (Node.mk 42 (leaf 57) (leaf 57))),
          { c := EOF, file := [] }) ∧
      evaluate (Node.mk 42 (leaf 57) (Node.mk 42 (leaf 57) (leaf 57))) = some 729 ∧
      toChar 729 = -39 ∧
      evaluate
        (Node.mk 42 (leaf 57) (Node.mk 42 (leaf 57) (Node.mk 42 (leaf 57) (leaf 57)))) =
          some (-351) ∧
      Expression 27 (prime (bytes "1/{8*8*4}")) =
        some (Node.mk 47 (leaf 49) (Node.mk 42 (leaf 56) (Node.mk 42 (leaf 56) (leaf 52))),
          { c := EOF, file := [] }) ∧
      evaluate (Node.mk 42 (leaf 56) (Node.mk 42 (leaf 56) (leaf 52))) = some 256 ∧
      evaluate
        (Node.mk 47 (leaf 49) (Node.mk 42 (leaf 56) (Node.mk 42 (leaf 56) (leaf 52)))) =
          none := by
  have hrange : ∀ v : Int, -128 ≤ toChar v ∧ toChar v ≤ 127 ∧ (toChar v - v) % 256 = 0 := by
    intro v
    unfold toChar
    omega
  refine ⟨hrange lv, hrange rv, ?_, ?_, ?_, ?_, ?_, by decide, by decide, by decide,
    by decide, by decide, by decide, by decide⟩
  · intro h
    rw [evaluate_node data left right hchild, hl, hr]
    simp [combine, h]
  · intro h
    rw [evaluate_node data left right hchild, hl, hr]
    simp [combine, h]
  · intro h
    rw [evaluate_node data left right hchild, hl, hr]
    simp [combine, h]
  · intro h hrv
    have h0 : toChar rv ≠ 0 := fun h0 => hrv ((toChar_eq_zero_iff rv).mp h0)
    rw [evaluate_node data left right hchild, hl, hr]
    simp [combine, h, h0]
  · intro h hrv
    have h0 : toChar rv = 0 := (toChar_eq_zero_iff rv).mpr hrv
    rw [evaluate_node data left right hchild, hl, hr]
    simp [combine, h, h0]

theorem C16_operands_narrowed_to_char_witness :
    evaluate (leaf 57) = some 9 ∧
      evaluate (Node.mk 42 (leaf 57) (Node.mk 42 (leaf 57) (leaf 57))) = some 729 ∧
      toChar 42 = 42 ∧
      evaluate
        (Node.mk 42 (leaf 57) (Node.mk 42 (leaf 57) (Node.mk 42 (leaf 57) (leaf 57)))) =
          some (toChar 9 * toChar 729) :=
  ⟨by decide, by decide, by decide,
    (C16_operands_narrowed_to_char 42 (leaf 57)
      (Node.mk 42 (leaf 57) (Node.mk 42 (leaf 57) (leaf 57))) 9 729 (by decide) (by decide)
      (by decide)).2.2.2.2.1 (by decide)⟩

/-- C17: the tree preserves the symbols of the input and their order.  For every well-formed
expression `s`, the in-order labels of the tree that `Expression` returns are exactly `s`
with all `{` and `}` removed; the leaves read from left to right are the digits of `s` in
input order; and the tree has one leaf per digit and one internal node per operator
character of `s`. -/
theorem C17_tree_preserves_symbols (s : List Nat) (T : Node) (fuel : Nat)
    (h : Derives Rule.expression s T) (hfuel : 3 * s.length ≤ fuel) :
    Expression fuel (prime s) = some (T, { c := EOF, file := [] }) ∧
      inorder T = List.map (fun b : Nat => (b : Int)) (s.filter (fun b => !isBrace b)) ∧
      fringe T = List.map (fun b : Nat => (b : Int)) (s.filter isDigit) ∧
      (fringe T).length = s.countP isDigit ∧
      internalCount T = s.countP isOperator := by
  obtain ⟨_, hi, hf, hc⟩ := derives_preserves h
  refine ⟨expression_derives h fuel hfuel, hi, hf, ?_, hc⟩
  rw [hf, List.length_map, List.countP_eq_length_filter]

theorem C17_tree_preserves_symbols_witness :
    Expression 27 (prime (bytes "{5*6}/2+5")) =
        some (Node.mk 47 (Node.mk 42 (leaf 53) (leaf 54)) (Node.mk 43 (leaf 50) (leaf 53)),
          { c := EOF, file := [] }) ∧
      inorder (Node.mk 47 (Node.mk 42 (leaf 53) (leaf 54)) (Node.mk 43 (leaf 50) (leaf 53))) =
        List.map (fun b : Nat => (b : Int))
          ((bytes "{5*6}/2+5").filter (fun b => !isBrace b)) ∧
      fringe (Node.mk 47 (Node.mk 42 (leaf 53) (leaf 54)) (Node.mk 43 (leaf 50) (leaf 53))) =
        List.map (fun b : Nat => (b : Int)) ((bytes "{5*6}/2+5").filter isDigit) ∧
      (fringe
        (Node.mk 47 (Node.mk 42 (leaf 53) (leaf 54)) (Node.mk 43 (leaf 50) (leaf 53)))).length =
        (bytes "{5*6}/2+5").countP isDigit ∧
      internalCount
        (Node.mk 47 (Node.mk 42 (leaf 53) (leaf 54)) (Node.mk 43 (leaf 50) (leaf 53))) =
        (bytes "{5*6}/2+5").countP isOperator :=
  C17_tree_preserves_symbols _ _ 27 derives_header_example (by decide)

end ExprTree
